import Mathlib

/-!
Verification of the opcode-table generator (`scripts/opcodes.py`).

The script reads a PDF, extracts per-page text, scans each page with the
regular expression

  `((?P<Op>\w+)\s*=\s*[0-9]+\s*(?:\((?P<Hex>0x[0-9A-Fa-f]+)\)))+`

via `re.findall`, renders each captured `(Op, Hex)` pair as a Zig constant
declaration, joins the declarations inside a fixed template and writes the
result to `src/op.zig`.

The embedding below models the regex scan faithfully.  For this particular
pattern the Python backtracking engine is deterministic: every quantifier
(`\w+`, `\s*`, `[0-9]+`, `[0-9A-Fa-f]+`) is followed by a character that can
never belong to the quantified class, so greedy maximal munch never backs
off, and each attempt at a position either succeeds with the maximal-munch
parse or fails outright.  `re.findall` then scans left to right, advancing
one character on failure and to the match end on success; since the pattern
has capture groups, each reported match is the tuple of its groups, and a
group inside the outer `(...)+` repetition reports the value captured by the
LAST repetition only.

Character classes follow the ASCII reading (the spec scopes identifiers to
ASCII): `\w` is letters, digits and underscore; `\s` is the ASCII whitespace
set; `str.upper` is the per-character ASCII uppercase map.
-/

/-- ASCII reading of the regex class `\w`. -/
def isWordChar (c : Char) : Bool := c.isAlphanum || c == '_'

/-- ASCII reading of the regex class `\s`. -/
def isSpaceChar (c : Char) : Bool :=
  c == ' ' || c == '\t' || c == '\n' || c == '\x0d' || c == '\x0b' || c == '\x0c'

/-- The regex class `[0-9]`. -/
def isDigitChar (c : Char) : Bool := c.isDigit

/-- The regex class `[0-9A-Fa-f]`. -/
def isHexChar (c : Char) : Bool :=
  c.isDigit || ('a' ≤ c && c ≤ 'f') || ('A' ≤ c && c ≤ 'F')

/-- Greedy `class+`: the maximal nonempty run of characters satisfying `p`,
together with the remainder; fails when the run is empty. -/
def takeWhile1 (p : Char → Bool) (s : List Char) : Option (List Char × List Char) :=
  match s.takeWhile p with
  | [] => none
  | t => some (t, s.dropWhile p)

/-- A single literal character. -/
def expectChar (c : Char) : List Char → Option (List Char)
  | x :: rest => if x = c then some rest else none
  | [] => none

/-- One match of the repeated group
`(?P<Op>\w+)\s*=\s*[0-9]+\s*(?:\((?P<Hex>0x[0-9A-Fa-f]+)\))`
anchored at the start of `s`: returns the `Op` capture, the `Hex` capture
(including its `0x` prefix, exactly as the named group captures it) and the
rest of the input.  Deterministic maximal munch is faithful here, see the
header comment. -/
def matchGroup (s : List Char) : Option (List Char × List Char × List Char) := do
  let (op, s1) ← takeWhile1 isWordChar s
  let s2 := s1.dropWhile isSpaceChar
  let s3 ← expectChar '=' s2
  let s4 := s3.dropWhile isSpaceChar
  let (_, s5) ← takeWhile1 isDigitChar s4
  let s6 := s5.dropWhile isSpaceChar
  let s7 ← expectChar '(' s6
  let s8 ← expectChar '0' s7
  let s9 ← expectChar 'x' s8
  let (hx, s10) ← takeWhile1 isHexChar s9
  let s11 ← expectChar ')' s10
  pure (op, '0' :: 'x' :: hx, s11)

/-- The greedy outer repetition `(...)+` after its first iteration: keeps
re-matching the group while it succeeds, retaining only the captures of the
last iteration (Python group semantics under repetition).  Each successful
iteration consumes at least one character, so `fuel` bounded by the input
length is exact. -/
def matchPlusAux : Nat → (List Char × List Char) → List Char →
    (List Char × List Char) × List Char
  | 0, acc, s => (acc, s)
  | fuel + 1, acc, s =>
    match matchGroup s with
    | none => (acc, s)
    | some (op, hx, rest) => matchPlusAux fuel (op, hx) rest

/-- One match of the full pattern `(group)+` anchored at the start of `s`:
the captures reported for the match (those of the last repetition) and the
remainder of the input. -/
def matchPlus (s : List Char) : Option ((List Char × List Char) × List Char) :=
  match matchGroup s with
  | none => none
  | some (op, hx, rest) => some (matchPlusAux (rest.length + 1) (op, hx) rest)

/-- `re.findall` over the full pattern: scan left to right, emit the group
tuple at each leftmost match and resume at the match end, advance one
character on failure. -/
def findScanAux : Nat → List Char → List (List Char × List Char)
  | 0, _ => []
  | fuel + 1, s =>
    match matchPlus s with
    | some ((op, hx), rest) => (op, hx) :: findScanAux fuel rest
    | none =>
      match s with
      | [] => []
      | _ :: t => findScanAux fuel t

/-- The list of `(Op, Hex)` capture pairs that
`re.findall(op_regex, page)` produces for a page text. -/
def findall (page : String) : List (String × String) :=
  (findScanAux (page.data.length + 1) page.data).map fun m => (⟨m.1⟩, ⟨m.2⟩)

/-- Modelled from the spec: §4.2 describes the matcher as producing the
ordered sequence of ALL non-overlapping occurrences of the pattern
"identifier, `=`, decimal digits, parenthesized `0x` hex literal" — i.e. a
scan in which each occurrence is one match of the group, with no outer
repetition.  Used to compare the spec's contract with the code's scan. -/
def specScanAux : Nat → List Char → List (List Char × List Char)
  | 0, _ => []
  | fuel + 1, s =>
    match matchGroup s with
    | some (op, hx, rest) => (op, hx) :: specScanAux fuel rest
    | none =>
      match s with
      | [] => []
      | _ :: t => specScanAux fuel t

/-- Modelled from the spec: the full ordered sequence of `(name, hex)` pairs
of all non-overlapping pattern occurrences in a page text. -/
def specFindall (page : String) : List (String × String) :=
  (specScanAux (page.data.length + 1) page.data).map fun m => (⟨m.1⟩, ⟨m.2⟩)

/-- Python `str.upper()` on ASCII text: uppercase each character. -/
def strUpper (s : String) : String := ⟨s.data.map Char.toUpper⟩

/-- `op_str = f"    pub const \x7bop.upper()\x7d: u8 = \x7bhex\x7d;"`. -/
def op_str (op hex : String) : String :=
  "    pub const " ++ strUpper op ++ ": u8 = " ++ hex ++ ";"

/-- `op_template_start = "pub const Op = struct \x7b" + '\n'`. -/
def op_template_start : String := "pub const Op = struct \x7b" ++ "\n"

/-- `op_template_end = '\n' + "\x7d;"`. -/
def op_template_end : String := "\n" ++ "\x7d;"

/-- The declaration line rendered from one capture pair. -/
def render (m : String × String) : String := op_str m.1 m.2

/-- The declaration lines contributed by one page. -/
def pageLines (page : String) : List String := (findall page).map render

/-- `op_list` after the page loop: per-page declaration lines concatenated
in page order (a page with no matches contributes nothing). -/
def op_list (pages : List String) : List String := (pages.map pageLines).flatten

/-- Lines 20–22: the assembled output text for a given sequence of
declaration lines. -/
def assemble (lines : List String) : String :=
  op_template_start ++ String.intercalate "\n" lines ++ op_template_end

/-- `op_zig`, the full output artifact for the given page texts. -/
def op_zig (pages : List String) : String := assemble (op_list pages)

/-- Flat position of the `j`-th match of page `i` inside `op_list`. -/
def entryPos (pages : List String) (i j : Nat) : Nat :=
  (((pages.map pageLines).take i).map List.length).sum + j

/-- The input document as the run observes it: either opening/parsing fails
(`PdfReader` raises) or it yields the list of per-page extracted texts. -/
inductive Doc where
  | failure : Doc
  | pages : List String → Doc
deriving DecidableEq

/-- Observable effects of the run, in program order. -/
inductive Ev where
  | readDoc : Bool → Ev
  | openOut : Ev
  | writeOut : String → Ev
deriving DecidableEq

/-- The sequence of effects the script performs: it constructs `PdfReader`
first (line 9); only after the whole page loop does it open the output path
for writing (line 24, truncating) and write `op_zig` (line 25).  A reader
failure raises before the output file is ever opened. -/
def runTrace : Doc → List Ev
  | .failure => [.readDoc false]
  | .pages ps => [.readDoc true, .openOut, .writeOut (op_zig ps)]

/-- Effect of one event on the output file (`none` = file absent;
`open(..., "w")` truncates, `write` stores the text). -/
def applyEv (fs : Option String) : Ev → Option String
  | .readDoc _ => fs
  | .openOut => some ""
  | .writeOut s => some s

/-- The output-file state after a run that starts from file state `fs`. -/
def runFS (doc : Doc) (fs : Option String) : Option String :=
  (runTrace doc).foldl applyEv fs

/-- Numeric value of a hex-digit string (spec-side measurement, used only to
state that out-of-range literals are not rejected). -/
def hexDigitVal (c : Char) : Nat :=
  if c.isDigit then c.toNat - '0'.toNat
  else if 'a' ≤ c && c ≤ 'f' then c.toNat - 'a'.toNat + 10
  else if 'A' ≤ c && c ≤ 'F' then c.toNat - 'A'.toNat + 10
  else 0

/-- Numeric value of a list of hex digits. -/
def hexValue (hx : List Char) : Nat := hx.foldl (fun a c => 16 * a + hexDigitVal c) 0

/-- Does the text begin with a parenthesized hex literal `(0x` + hex digit? -/
def startsParenHex : List Char → Bool
  | '(' :: '0' :: 'x' :: c :: _ => isHexChar c
  | _ => false

/-- Does the text contain a parenthesized hex literal anywhere? -/
def hasParenHex (s : List Char) : Bool := s.tails.any startsParenHex

/-- A well-formed opcode line `NAME = DEC (0xHEX)` with single spaces, as in
the spec's scenarios, built from its three fields. -/
def opLine (name dec hx : List Char) : List Char :=
  name ++ (' ' :: '=' :: ' ' :: (dec ++ (' ' :: '(' :: '0' :: 'x' :: (hx ++ [')']))))

/-- Executable non-adjacency check: no occurrence of the group is followed,
with no intervening character, by another occurrence. -/
def noAdjB (s : List Char) : Bool :=
  s.tails.all fun t =>
    match matchGroup t with
    | some (_, _, rest) => (matchGroup rest).isNone
    | none => true

/-- Propositional form of `noAdjB`. -/
def NoAdj (s : List Char) : Prop :=
  ∀ t op hx rest, t <:+ s → matchGroup t = some (op, hx, rest) → matchGroup rest = none

/-! ### Basic facts about the matching combinators -/

theorem takeWhile1_eq_some {p : Char → Bool} {s : List Char} {t r : List Char}
    (h : takeWhile1 p s = some (t, r)) :
    s.takeWhile p = t ∧ s.dropWhile p = r ∧ t ≠ [] := by
  unfold takeWhile1 at h
  split at h
  · exact absurd h (by simp)
  · next heq =>
    rw [Option.some.injEq, Prod.mk.injEq] at h
    obtain ⟨h1, h2⟩ := h
    subst h1
    subst h2
    exact ⟨rfl, rfl, fun hnil => heq hnil⟩

theorem expectChar_eq_some {c : Char} {s r : List Char} (h : expectChar c s = some r) :
    s = c :: r := by
  cases s with
  | nil => simp [expectChar] at h
  | cons x t =>
    simp only [expectChar] at h
    split at h
    · next hx => cases h; exact hx ▸ rfl
    · cases h

theorem matchGroup_inv {s op hx rest : List Char}
    (h : matchGroup s = some (op, hx, rest)) :
    ∃ (s1 s3 dec s5 s7 s8 s9 hx0 s10 : List Char),
      takeWhile1 isWordChar s = some (op, s1) ∧
      expectChar '=' (s1.dropWhile isSpaceChar) = some s3 ∧
      takeWhile1 isDigitChar (s3.dropWhile isSpaceChar) = some (dec, s5) ∧
      expectChar '(' (s5.dropWhile isSpaceChar) = some s7 ∧
      expectChar '0' s7 = some s8 ∧
      expectChar 'x' s8 = some s9 ∧
      takeWhile1 isHexChar s9 = some (hx0, s10) ∧
      expectChar ')' s10 = some rest ∧
      hx = '0' :: 'x' :: hx0 := by
  unfold matchGroup at h
  simp only [bind, Option.bind_eq_some, pure, Option.some.injEq, Prod.mk.injEq] at h
  obtain ⟨⟨op', s1⟩, h1, s3, h2, ⟨dec, s5⟩, h3, s7, h4, s8, h5, s9, h6, ⟨hx0, s10⟩, h7,
    s11, h8, h9⟩ := h
  obtain ⟨hop, hhx, hrest⟩ := h9
  subst hop
  subst hhx
  subst hrest
  exact ⟨s1, s3, dec, s5, s7, s8, s9, hx0, s10, h1, h2, h3, h4, h5, h6, h7, h8, rfl⟩

theorem matchGroup_rest_suffix {s op hx rest : List Char}
    (h : matchGroup s = some (op, hx, rest)) : rest <:+ s ∧ rest.length < s.length := by
  obtain ⟨s1, s3, dec, s5, s7, s8, s9, hx0, s10, h1, h2, h3, h4, h5, h6, h7, h8, -⟩ :=
    matchGroup_inv h
  obtain ⟨-, hd1, -⟩ := takeWhile1_eq_some h1
  obtain ⟨-, hd3, -⟩ := takeWhile1_eq_some h3
  obtain ⟨-, hd7, -⟩ := takeWhile1_eq_some h7
  have e2 := expectChar_eq_some h2
  have e4 := expectChar_eq_some h4
  have e5 := expectChar_eq_some h5
  have e6 := expectChar_eq_some h6
  have e8 := expectChar_eq_some h8
  have hs10 : rest <:+ s10 := by rw [e8]; exact List.suffix_cons _ _
  have hs9 : s10 <:+ s9 := by rw [← hd7]; exact List.dropWhile_suffix _
  have hs8 : s9 <:+ s8 := by rw [e6]; exact List.suffix_cons _ _
  have hs7 : s8 <:+ s7 := by rw [e5]; exact List.suffix_cons _ _
  have hs6 : s7 <:+ s5.dropWhile isSpaceChar := by rw [e4]; exact List.suffix_cons _ _
  have hs5 : s5.dropWhile isSpaceChar <:+ s5 := List.dropWhile_suffix _
  have hs4 : s5 <:+ s3.dropWhile isSpaceChar := by rw [← hd3]; exact List.dropWhile_suffix _
  have hs3 : s3.dropWhile isSpaceChar <:+ s3 := List.dropWhile_suffix _
  have hrest3 : rest <:+ s3 :=
    ((((((hs10.trans hs9).trans hs8).trans hs7).trans hs6).trans hs5).trans hs4).trans hs3
  have hs2' : s3 <:+ s1.dropWhile isSpaceChar := by rw [e2]; exact List.suffix_cons _ _
  have hs2 : s1.dropWhile isSpaceChar <:+ s1 := List.dropWhile_suffix _
  have hs1 : s1 <:+ s := by rw [← hd1]; exact List.dropWhile_suffix _
  refine ⟨hrest3.trans ((hs2'.trans hs2).trans hs1), ?_⟩
  have l1 : rest.length ≤ s3.length := hrest3.length_le
  have l2 : s3.length < (s1.dropWhile isSpaceChar).length := by rw [e2]; simp
  have l3 : (s1.dropWhile isSpaceChar).length ≤ s.length := (hs2.trans hs1).length_le
  omega

theorem matchGroup_parenHex {s op hx rest : List Char}
    (h : matchGroup s = some (op, hx, rest)) :
    ∃ u, u <:+ s ∧ startsParenHex u = true := by
  obtain ⟨s1, s3, dec, s5, s7, s8, s9, hx0, s10, h1, h2, h3, h4, h5, h6, h7, h8, -⟩ :=
    matchGroup_inv h
  obtain ⟨-, hd1, -⟩ := takeWhile1_eq_some h1
  obtain ⟨-, hd3, -⟩ := takeWhile1_eq_some h3
  obtain ⟨ht7, -, hne7⟩ := takeWhile1_eq_some h7
  have e2 := expectChar_eq_some h2
  have e4 := expectChar_eq_some h4
  have e5 := expectChar_eq_some h5
  have e6 := expectChar_eq_some h6
  obtain ⟨c, t, rfl, hc⟩ : ∃ c t, s9 = c :: t ∧ isHexChar c = true := by
    cases s9 with
    | nil => exact absurd ht7.symm hne7
    | cons c t =>
      refine ⟨c, t, rfl, ?_⟩
      by_contra hc
      rw [List.takeWhile_cons, Bool.of_not_eq_true hc] at ht7
      simp at ht7
      exact hne7 ht7
  refine ⟨s5.dropWhile isSpaceChar, ?_, ?_⟩
  · have hs5 : s5.dropWhile isSpaceChar <:+ s5 := List.dropWhile_suffix _
    have hs4 : s5 <:+ s3.dropWhile isSpaceChar := by rw [← hd3]; exact List.dropWhile_suffix _
    have hs3 : s3.dropWhile isSpaceChar <:+ s3 := List.dropWhile_suffix _
    have hs2' : s3 <:+ s1.dropWhile isSpaceChar := by rw [e2]; exact List.suffix_cons _ _
    have hs2 : s1.dropWhile isSpaceChar <:+ s1 := List.dropWhile_suffix _
    have hs1 : s1 <:+ s := by rw [← hd1]; exact List.dropWhile_suffix _
    exact ((((hs5.trans hs4).trans hs3).trans hs2').trans hs2).trans hs1
  · rw [e4, e5, e6]
    simpa [startsParenHex] using hc

theorem matchGroup_nil : matchGroup [] = none := rfl

/-! ### The non-adjacency condition -/

theorem noAdj_of_noAdjB {s : List Char} (h : noAdjB s = true) : NoAdj s := by
  intro t op hx rest ht hm
  have hmem : t ∈ s.tails := (List.mem_tails t s).mpr ht
  have ht' := List.all_eq_true.mp h t hmem
  rw [hm] at ht'
  simpa using ht'

theorem NoAdj.mono {s u : List Char} (h : NoAdj s) (hu : u <:+ s) : NoAdj u :=
  fun t op hx rest ht hm => h t op hx rest (ht.trans hu) hm

theorem matchPlus_eq_of_none {s op hx rest : List Char}
    (hm : matchGroup s = some (op, hx, rest)) (hr : matchGroup rest = none) :
    matchPlus s = some ((op, hx), rest) := by
  unfold matchPlus
  rw [hm]
  simp only [matchPlusAux, hr]

theorem matchPlus_eq_none {s : List Char} (hm : matchGroup s = none) : matchPlus s = none := by
  unfold matchPlus
  rw [hm]

/-- On inputs where no occurrence immediately abuts another, the code's scan
(with the outer `(...)+`) and the spec's scan (one occurrence per match)
coincide, fuel permitting. -/
theorem findScan_eq_specScan :
    ∀ (f g : Nat) (s : List Char), s.length < f → s.length < g → NoAdj s →
      findScanAux f s = specScanAux g s := by
  intro f
  induction f with
  | zero => intro g s hf _ _; omega
  | succ f ih =>
    intro g s hf hg hna
    cases g with
    | zero => omega
    | succ g =>
      cases hm : matchGroup s with
      | none =>
        simp only [findScanAux, specScanAux, matchPlus_eq_none hm, hm]
        cases s with
        | nil => rfl
        | cons c t =>
          simp only [List.length_cons] at hf hg
          exact ih g t (by omega) (by omega) (hna.mono (List.suffix_cons c t))
      | some m =>
        obtain ⟨op, hx, rest⟩ := m
        have hr : matchGroup rest = none := hna s op hx rest List.suffix_rfl hm
        obtain ⟨hsuf, hlen⟩ := matchGroup_rest_suffix hm
        simp only [findScanAux, specScanAux, matchPlus_eq_of_none hm hr, hm]
        rw [ih g rest (by omega) (by omega) (hna.mono hsuf)]

theorem findScanAux_nil : ∀ f, findScanAux f ([] : List Char) = [] := by
  intro f
  cases f with
  | zero => rfl
  | succ f => simp [findScanAux, matchPlus_eq_none matchGroup_nil]

/-! ### Scans of occurrence-free text -/

theorem findScan_eq_nil :
    ∀ (f : Nat) (s : List Char), (∀ t, t <:+ s → matchGroup t = none) →
      findScanAux f s = [] := by
  intro f
  induction f with
  | zero => intro s _; rfl
  | succ f ih =>
    intro s h
    have hm : matchGroup s = none := h s List.suffix_rfl
    simp only [findScanAux, matchPlus_eq_none hm]
    cases s with
    | nil => rfl
    | cons c t => exact ih t fun u hu => h u (hu.trans (List.suffix_cons c t))

theorem findall_eq_nil_of_no_parenHex {page : String} (h : hasParenHex page.data = false) :
    findall page = [] := by
  have hnone : ∀ t, t <:+ page.data → matchGroup t = none := by
    intro t ht
    cases hm : matchGroup t with
    | none => rfl
    | some m =>
      obtain ⟨op, hx, rest⟩ := m
      obtain ⟨u, hu, hs⟩ := matchGroup_parenHex hm
      have : hasParenHex page.data = true := by
        unfold hasParenHex
        rw [List.any_eq_true]
        exact ⟨u, (List.mem_tails u _).mpr (hu.trans ht), hs⟩
      rw [this] at h
      cases h
  simp [findall, findScan_eq_nil _ _ hnone]

/-! ### Character-class facts and append computations -/

theorem space_not_digit {c : Char} (h : isSpaceChar c = true) : isDigitChar c = false := by
  simp only [isSpaceChar, Bool.or_eq_true, beq_iff_eq] at h
  rcases h with ((((h | h) | h) | h) | h) | h <;> subst h <;> decide

theorem digit_not_space {c : Char} (h : isDigitChar c = true) : isSpaceChar c = false := by
  cases hs : isSpaceChar c
  · rfl
  · rw [space_not_digit hs] at h
    simp at h

theorem dropWhile_cons_pos {p : Char → Bool} {c : Char} (h : p c = true) (l : List Char) :
    (c :: l).dropWhile p = l.dropWhile p := by
  simp [List.dropWhile_cons, h]

theorem dropWhile_cons_neg {p : Char → Bool} {c : Char} (h : p c = false) (l : List Char) :
    (c :: l).dropWhile p = c :: l := by
  simp [List.dropWhile_cons, h]

theorem takeWhile_dropWhile_append {p : Char → Bool} :
    ∀ (l₁ l₂ : List Char), (∀ c ∈ l₁, p c = true) →
      (∀ c, l₂.head? = some c → p c = false) →
      (l₁ ++ l₂).takeWhile p = l₁ ∧ (l₁ ++ l₂).dropWhile p = l₂ := by
  intro l₁
  induction l₁ with
  | nil =>
    intro l₂ _ h2
    cases l₂ with
    | nil => exact ⟨rfl, rfl⟩
    | cons c t =>
      have hc := h2 c rfl
      exact ⟨by simp [List.takeWhile_cons, hc], dropWhile_cons_neg hc t⟩
  | cons a l₁ ih =>
    intro l₂ h1 h2
    have ha : p a = true := h1 a (List.mem_cons_self a l₁)
    have ht := ih l₂ (fun c hc => h1 c (List.mem_cons_of_mem a hc)) h2
    refine ⟨?_, ?_⟩
    · simp only [List.cons_append, List.takeWhile_cons, ha, if_true]
      rw [ht.1]
    · simp only [List.cons_append]
      rw [dropWhile_cons_pos ha, ht.2]

theorem takeWhile1_append {p : Char → Bool} {l₁ l₂ : List Char} (hne : l₁ ≠ [])
    (h1 : ∀ c ∈ l₁, p c = true) (h2 : ∀ c, l₂.head? = some c → p c = false) :
    takeWhile1 p (l₁ ++ l₂) = some (l₁, l₂) := by
  obtain ⟨ht, hd⟩ := takeWhile_dropWhile_append l₁ l₂ h1 h2
  unfold takeWhile1
  rw [ht, hd]
  cases l₁ with
  | nil => exact absurd rfl hne
  | cons a l => rfl
theorem expectChar_cons_self (c : Char) (l : List Char) : expectChar c (c :: l) = some l := by
  simp [expectChar]

theorem matchGroup_opLine {name dec hx : List Char}
    (hn : name ≠ []) (hnw : ∀ c ∈ name, isWordChar c = true)
    (hd : dec ≠ []) (hdd : ∀ c ∈ dec, isDigitChar c = true)
    (hh : hx ≠ []) (hhh : ∀ c ∈ hx, isHexChar c = true) :
    matchGroup (opLine name dec hx) = some (name, '0' :: 'x' :: hx, []) := by
  obtain ⟨c, dec', rfl⟩ : ∃ c dec', dec = c :: dec' := by
    cases dec with
    | nil => exact absurd rfl hd
    | cons c t => exact ⟨c, t, rfl⟩
  have hc : isDigitChar c = true := hdd c (List.mem_cons_self c dec')
  have e1 : takeWhile1 isWordChar (opLine name (c :: dec') hx) =
      some (name, ' ' :: '=' :: ' ' :: ((c :: dec') ++ (' ' :: '(' :: '0' :: 'x' :: (hx ++ [')'])))) := by
    unfold opLine
    exact takeWhile1_append hn hnw (by intro d hdh; simp at hdh; subst hdh; decide)
  have e2 : (' ' :: '=' :: ' ' :: ((c :: dec') ++ (' ' :: '(' :: '0' :: 'x' :: (hx ++ [')'])))).dropWhile isSpaceChar =
      '=' :: ' ' :: ((c :: dec') ++ (' ' :: '(' :: '0' :: 'x' :: (hx ++ [')']))) := by
    rw [dropWhile_cons_pos (by decide)]
    exact dropWhile_cons_neg (by decide) _
  have e4 : (' ' :: ((c :: dec') ++ (' ' :: '(' :: '0' :: 'x' :: (hx ++ [')'])))).dropWhile isSpaceChar =
      (c :: dec') ++ (' ' :: '(' :: '0' :: 'x' :: (hx ++ [')'])) := by
    rw [dropWhile_cons_pos (by decide), List.cons_append]
    exact dropWhile_cons_neg (digit_not_space hc) _
  have e5 : takeWhile1 isDigitChar ((c :: dec') ++ (' ' :: '(' :: '0' :: 'x' :: (hx ++ [')']))) =
      some (c :: dec', ' ' :: '(' :: '0' :: 'x' :: (hx ++ [')'])) :=
    takeWhile1_append (by simp) hdd (by intro d hdh; simp at hdh; subst hdh; decide)
  have e6 : (' ' :: '(' :: '0' :: 'x' :: (hx ++ [')'])).dropWhile isSpaceChar =
      '(' :: '0' :: 'x' :: (hx ++ [')']) := by
    rw [dropWhile_cons_pos (by decide)]
    exact dropWhile_cons_neg (by decide) _
  have e10 : takeWhile1 isHexChar (hx ++ [')']) = some (hx, [')']) :=
    takeWhile1_append hh hhh (by intro d hdh; simp at hdh; subst hdh; decide)
  unfold matchGroup
  rw [show opLine name (c :: dec') hx =
    name ++ (' ' :: '=' :: ' ' :: ((c :: dec') ++ (' ' :: '(' :: '0' :: 'x' :: (hx ++ [')'])))) from rfl] at e1 ⊢
  rw [e1]
  simp only [bind, Option.some_bind]
  rw [e2, expectChar_cons_self]
  simp only [Option.some_bind]
  rw [e4, e5]
  simp only [Option.some_bind]
  rw [e6, expectChar_cons_self]
  simp only [Option.some_bind]
  rw [expectChar_cons_self]
  simp only [Option.some_bind]
  rw [expectChar_cons_self]
  simp only [Option.some_bind]
  rw [e10]
  simp only [Option.some_bind]
  rw [expectChar_cons_self]
  simp only [Option.some_bind]
  rfl

theorem findall_opLine {name dec hx : List Char}
    (hn : name ≠ []) (hnw : ∀ c ∈ name, isWordChar c = true)
    (hd : dec ≠ []) (hdd : ∀ c ∈ dec, isDigitChar c = true)
    (hh : hx ≠ []) (hhh : ∀ c ∈ hx, isHexChar c = true) :
    findall ⟨opLine name dec hx⟩ = [(⟨name⟩, ⟨'0' :: 'x' :: hx⟩)] := by
  have hm := matchGroup_opLine hn hnw hd hdd hh hhh
  have hp : matchPlus (opLine name dec hx) = some ((name, '0' :: 'x' :: hx), []) :=
    matchPlus_eq_of_none hm matchGroup_nil
  unfold findall
  simp only [findScanAux, hp, findScanAux_nil, List.map]
theorem sum_take_mono : ∀ (l : List Nat) (a b : Nat), a ≤ b → (l.take a).sum ≤ (l.take b).sum := by
  intro l
  induction l with
  | nil => intro a b _; simp
  | cons x t ih =>
    intro a b hab
    cases a with
    | zero => simp [Nat.zero_le]
    | succ a =>
      cases b with
      | zero => omega
      | succ b =>
        simp only [List.take_succ_cons, List.sum_cons]
        exact Nat.add_le_add_left (ih a b (by omega)) x

theorem op_list_getElem :
    ∀ (ps : List String) (i j : Nat) (pi : String), ps[i]? = some pi →
      j < (pageLines pi).length →
      (op_list ps)[entryPos ps i j]? = (pageLines pi)[j]? := by
  intro ps
  induction ps with
  | nil => intro i j pi h _; simp at h
  | cons p t ih =>
    intro i j pi h hj
    cases i with
    | zero =>
      simp only [List.getElem?_cons_zero, Option.some.injEq] at h
      subst h
      have he : entryPos (p :: t) 0 j = j := by simp [entryPos]
      have hol : op_list (p :: t) = pageLines p ++ op_list t := by simp [op_list]
      rw [he, hol, List.getElem?_append_left hj]
    | succ i =>
      simp only [List.getElem?_cons_succ] at h
      have hE : entryPos (p :: t) (i + 1) j = (pageLines p).length + entryPos t i j := by
        simp only [entryPos, List.map_cons, List.take_succ_cons, List.sum_cons]
        omega
      have hol : op_list (p :: t) = pageLines p ++ op_list t := by simp [op_list]
      rw [hE, hol, List.getElem?_append_right (by omega)]
      have hsub : (pageLines p).length + entryPos t i j - (pageLines p).length = entryPos t i j := by
        omega
      rw [hsub]
      exact ih i j pi h hj

theorem entryPos_mono {ps : List String} {i j i' j' : Nat} {pi : String}
    (hi : ps[i]? = some pi) (hj : j < (pageLines pi).length)
    (hlt : i < i' ∨ (i = i' ∧ j < j')) :
    entryPos ps i j < entryPos ps i' j' := by
  rcases hlt with hlt | ⟨rfl, hjj⟩
  · obtain ⟨hib, hieq⟩ := List.getElem?_eq_some_iff.mp hi
    set L : List Nat := (ps.map pageLines).map List.length with hL
    have h1 : entryPos ps i j = (L.take i).sum + j := by
      simp [entryPos, hL, List.map_take]
    have h2 : entryPos ps i' j' = (L.take i').sum + j' := by
      simp [entryPos, hL, List.map_take]
    have hiL : i < L.length := by simp [hL]; omega
    have hsucc : (L.take (i + 1)).sum = (L.take i).sum + L[i] := List.sum_take_succ L i hiL
    have hLi : L[i] = (pageLines pi).length := by
      simp [hL, hieq]
    have hmono : (L.take (i + 1)).sum ≤ (L.take i').sum := sum_take_mono L (i + 1) i' (by omega)
    omega
  · simp only [entryPos]
    omega

theorem intercalate_singleton (s x : String) : String.intercalate s [x] = x := rfl

/-! ### Claims -/

/-- C1, as stated, is false: on a page where two pattern occurrences are
immediately adjacent ("A = 1 (0x01)B = 2 (0x02)"), the outer `(...)+` of the
regex swallows both occurrences into one match whose groups hold only the
last repetition, so the pair ("A", "0x01") is omitted from the result. -/
theorem C1_counterexample :
    specFindall "A = 1 (0x01)B = 2 (0x02)" = [("A", "0x01"), ("B", "0x02")] ∧
    findall "A = 1 (0x01)B = 2 (0x02)" = [("B", "0x02")] ∧
    findall "A = 1 (0x01)B = 2 (0x02)" ≠ specFindall "A = 1 (0x01)B = 2 (0x02)" := by
  refine ⟨by decide, by decide, by decide⟩

/-- C1 (amended): for every page text in which no pattern occurrence is
immediately followed, with no intervening character, by another occurrence,
the Opcode Matcher produces the full ordered sequence of (name, hex) pairs
of every non-overlapping occurrence, none omitted; when occurrences are
immediately adjacent only the last of each adjacent run is reported. -/
theorem C1_matcher_all_occurrences (page : String) (h : noAdjB page.data = true) :
    findall page = specFindall page := by
  unfold findall specFindall
  rw [findScan_eq_specScan (page.data.length + 1) (page.data.length + 1) page.data
    (by omega) (by omega) (noAdj_of_noAdjB h)]

theorem C1_matcher_all_occurrences_witness :
    noAdjB ("STOP = 0 (0x00)\nADD = 1 (0x01)").data = true ∧
    findall "STOP = 0 (0x00)\nADD = 1 (0x01)" = specFindall "STOP = 0 (0x00)\nADD = 1 (0x01)" :=
  ⟨by decide, C1_matcher_all_occurrences "STOP = 0 (0x00)\nADD = 1 (0x01)" (by decide)⟩

/-- C2, as stated, is false: when the document opens and its pages extract
to text with no pattern occurrences, the script still opens the output path
and writes the (empty) table, so an output file is produced. -/
theorem C2_counterexample :
    findall "" = [] ∧ runFS (Doc.pages [""]) none ≠ none :=
  ⟨rfl, by simp [runFS, runTrace, applyEv]⟩

/-- C2 (amended): if the reference document is missing or unreadable, the
run terminates with the output file neither written nor modified; but if
the document opens and every page's text contains no pattern occurrence,
the output file IS written, containing exactly the empty table (the opening
template followed directly by the closing template). -/
theorem C2_no_output_amended (ps : List String) (fs : Option String)
    (h : ∀ p ∈ ps, findall p = []) :
    runFS Doc.failure fs = fs ∧
    runFS (Doc.pages ps) fs = some (op_template_start ++ op_template_end) := by
  refine ⟨rfl, ?_⟩
  have hol : op_list ps = [] := by
    simp only [op_list, List.flatten_eq_nil_iff]
    intro l hl
    simp only [List.mem_map] at hl
    obtain ⟨p, hp, rfl⟩ := hl
    simp [pageLines, h p hp]
  simp [runFS, runTrace, applyEv, op_zig, assemble, hol, String.intercalate]

theorem C2_no_output_amended_witness :
    (∀ p ∈ [""], findall p = []) ∧
    runFS (Doc.pages [""]) none = some (op_template_start ++ op_template_end) :=
  ⟨by decide, (C2_no_output_amended [""] none (by decide)).2⟩

/-- C3: for every well-formed input line `NAME = 12 (0x0C)` (identifier of
word characters, decimal digits, parenthesized `0x` hex literal), the
matcher extracts exactly the pair (name, "0x" ++ hex digits), the hex
literal's casing preserved verbatim, and the decimal value appears nowhere
in the pair. -/
theorem C3_wellformed_line_extraction (name dec hx : List Char)
    (hn : name ≠ []) (hnw : ∀ c ∈ name, isWordChar c = true)
    (hd : dec ≠ []) (hdd : ∀ c ∈ dec, isDigitChar c = true)
    (hh : hx ≠ []) (hhh : ∀ c ∈ hx, isHexChar c = true) :
    findall ⟨opLine name dec hx⟩ = [(⟨name⟩, ⟨'0' :: 'x' :: hx⟩)] :=
  findall_opLine hn hnw hd hdd hh hhh

theorem C3_wellformed_line_extraction_witness :
    (⟨opLine ['N', 'A', 'M', 'E'] ['1', '2'] ['0', 'C']⟩ : String) = "NAME = 12 (0x0C)" ∧
    (['N', 'A', 'M', 'E'] : List Char) ≠ [] ∧
    findall ⟨opLine ['N', 'A', 'M', 'E'] ['1', '2'] ['0', 'C']⟩ =
      [(⟨['N', 'A', 'M', 'E']⟩, ⟨['0', 'x', '0', 'C']⟩)] :=
  ⟨by decide, by decide,
    C3_wellformed_line_extraction ['N', 'A', 'M', 'E'] ['1', '2'] ['0', 'C']
      (by decide) (by decide) (by decide) (by decide) (by decide) (by decide)⟩

/-- C4: the Declaration Renderer produces exactly
`    pub const {UPPERCASED_NAME}: u8 = {hex};` — the identifier is the
character-by-character uppercase fold of the captured name and the hex
literal is emitted verbatim, `0x` prefix and digit casing included. -/
theorem C4_renderer_exact_line (name hex : String) :
    (op_str name hex).data =
      "    pub const ".data ++ name.data.map Char.toUpper ++
        ": u8 = ".data ++ hex.data ++ ";".data := by
  simp [op_str, strUpper]

/-- C5: the Table Assembler produces exactly the fixed opening template,
a newline, the declaration lines joined with newline separators, a newline
and the fixed closing template. -/
theorem C5_assembler_exact (lines : List String) :
    (assemble lines).data =
      "pub const Op = struct \x7b\n".data ++ (String.intercalate "\n" lines).data ++
        "\n\x7d;".data := rfl

/-- C6: if match A lies on an earlier page than match B, or earlier within
the same page's text, then A's declaration line occupies a strictly earlier
position of the output line sequence than B's. -/
theorem C6_order_preservation (ps : List String) (i j i' j' : Nat) (pi pi' : String)
    (hi : ps[i]? = some pi) (hj : j < (pageLines pi).length)
    (hi' : ps[i']? = some pi') (hj' : j' < (pageLines pi').length)
    (hlt : i < i' ∨ (i = i' ∧ j < j')) :
    entryPos ps i j < entryPos ps i' j' ∧
    (op_list ps)[entryPos ps i j]? = (pageLines pi)[j]? ∧
    (op_list ps)[entryPos ps i' j']? = (pageLines pi')[j']? :=
  ⟨entryPos_mono hi hj hlt, op_list_getElem ps i j pi hi hj,
    op_list_getElem ps i' j' pi' hi' hj'⟩

theorem C6_order_preservation_witness :
    (["STOP = 0 (0x00)", "ADD = 1 (0x01)"][0]? = some "STOP = 0 (0x00)") ∧
    0 < (pageLines "STOP = 0 (0x00)").length ∧
    (entryPos ["STOP = 0 (0x00)", "ADD = 1 (0x01)"] 0 0 <
      entryPos ["STOP = 0 (0x00)", "ADD = 1 (0x01)"] 1 0 ∧
    (op_list ["STOP = 0 (0x00)", "ADD = 1 (0x01)"])[
        entryPos ["STOP = 0 (0x00)", "ADD = 1 (0x01)"] 0 0]? =
      (pageLines "STOP = 0 (0x00)")[0]? ∧
    (op_list ["STOP = 0 (0x00)", "ADD = 1 (0x01)"])[
        entryPos ["STOP = 0 (0x00)", "ADD = 1 (0x01)"] 1 0]? =
      (pageLines "ADD = 1 (0x01)")[0]?) :=
  ⟨by decide, by decide,
    C6_order_preservation ["STOP = 0 (0x00)", "ADD = 1 (0x01)"] 0 0 1 0
      "STOP = 0 (0x00)" "ADD = 1 (0x01)" (by decide) (by decide) (by decide) (by decide)
      (Or.inl (by decide))⟩

/-- C7: a line containing no parenthesized hexadecimal literal (no substring
of the form `(0x` followed by a hex digit), such as `STOP = 0`, yields zero
matches and contributes no declaration line. -/
theorem C7_no_hex_no_match (line : String) (h : hasParenHex line.data = false) :
    findall line = [] :=
  findall_eq_nil_of_no_parenHex h

theorem C7_no_hex_no_match_witness :
    hasParenHex ("STOP = 0").data = false ∧ findall "STOP = 0" = [] :=
  ⟨by decide, C7_no_hex_no_match "STOP = 0" (by decide)⟩

/-- C8: the pipeline is deterministic: the artifact written for a set of
page texts is `op_zig` of those texts regardless of the prior state of the
output file, so two runs on the same unchanged document (in particular a
second run over the first run's output) produce byte-identical artifacts. -/
theorem C8_deterministic_idempotent (ps : List String) (fs₁ fs₂ : Option String) :
    runFS (Doc.pages ps) fs₁ = runFS (Doc.pages ps) fs₂ ∧
    runFS (Doc.pages ps) (runFS (Doc.pages ps) fs₁) = runFS (Doc.pages ps) fs₁ ∧
    runFS (Doc.pages ps) fs₁ = some (op_zig ps) :=
  ⟨rfl, rfl, rfl⟩

/-- C9: when opening the input document fails, the run stops with the
output file untouched; on that path the output file is never opened for
writing and nothing is ever written to it. -/
theorem C9_open_failure_no_write (fs : Option String) :
    runFS Doc.failure fs = fs ∧
    Ev.openOut ∉ runTrace Doc.failure ∧
    ∀ s, Ev.writeOut s ∉ runTrace Doc.failure := by
  refine ⟨rfl, by simp [runTrace], ?_⟩
  intro s
  simp [runTrace]

/-- C10: the captured hex literal is never validated against the `u8`
width: even when its numeric value exceeds 255 the pipeline emits the
declaration line typed `u8` with the literal verbatim, with no rejection or
truncation. -/
theorem C10_no_u8_range_check (name dec hx : List Char)
    (hn : name ≠ []) (hnw : ∀ c ∈ name, isWordChar c = true)
    (hd : dec ≠ []) (hdd : ∀ c ∈ dec, isDigitChar c = true)
    (hh : hx ≠ []) (hhh : ∀ c ∈ hx, isHexChar c = true)
    (hbig : 255 < hexValue hx) :
    op_zig [⟨opLine name dec hx⟩] =
      op_template_start ++
        ("    pub const " ++ strUpper ⟨name⟩ ++ ": u8 = " ++
          (⟨'0' :: 'x' :: hx⟩ : String) ++ ";") ++
        op_template_end := by
  have hf := findall_opLine hn hnw hd hdd hh hhh
  simp only [op_zig, op_list, List.map, pageLines, hf, render, List.flatten,
    List.append_nil, assemble, intercalate_singleton, op_str]

theorem C10_no_u8_range_check_witness :
    255 < hexValue ['1', 'F', 'F'] ∧
    op_zig [⟨opLine ['O', 'P'] ['5', '1', '1'] ['1', 'F', 'F']⟩] =
      op_template_start ++
        ("    pub const " ++ strUpper ⟨['O', 'P']⟩ ++ ": u8 = " ++
          (⟨['0', 'x', '1', 'F', 'F']⟩ : String) ++ ";") ++
        op_template_end :=
  ⟨by decide,
    C10_no_u8_range_check ['O', 'P'] ['5', '1', '1'] ['1', 'F', 'F']
      (by decide) (by decide) (by decide) (by decide) (by decide) (by decide) (by decide)⟩
